import Mathlib

/-!
Verification of the proton-placement engine of this repository
(`md_script/add_proton.py`) against its specification.

The Python code operates on an ASE `Atoms` object: a periodic cell plus an
ordered list of (element symbol, cartesian position) atoms.  Floating-point
coordinates are idealised as real numbers.  The minimum-image convention of
the external geometry library (`ase.Atoms.get_distance` with `mic=True`) is
modelled as a function `mic : Vec3 → Vec3` carried by the structure: it maps a
plain displacement vector to its minimum-image representative, and
`get_distance(a0, a1, mic=True)` is the Euclidean norm of
`mic (positions[a1] - positions[a0])`, while the `vector=True` variant returns
`mic (positions[a1] - positions[a0])` itself.  Concrete instances below use
the identity (a cell large enough that every displacement in play is its own
minimum image); general theorems only assume that a minimum image is never
longer than the plain displacement.

Python's `sorted(neighbors, key=lambda x: x['dist'])` is the stable ascending
sort by distance; it is modelled by a stable insertion sort, which computes
the same list as any stable comparison sort.
-/

namespace AddProton

/-- A 3-vector of real coordinates, modelling a numpy array of shape (3,). -/
structure Vec3 where
  x : ℝ
  y : ℝ
  z : ℝ

namespace Vec3

def add (a b : Vec3) : Vec3 := ⟨a.x + b.x, a.y + b.y, a.z + b.z⟩

def sub (a b : Vec3) : Vec3 := ⟨a.x - b.x, a.y - b.y, a.z - b.z⟩

/-- Scaling a vector by a scalar, `v * c` in numpy. -/
def smul (v : Vec3) (c : ℝ) : Vec3 := ⟨v.x * c, v.y * c, v.z * c⟩

/-- Componentwise division by a scalar, `v / c` in numpy. -/
noncomputable def div (v : Vec3) (c : ℝ) : Vec3 := ⟨v.x / c, v.y / c, v.z / c⟩

def zero : Vec3 := ⟨0, 0, 0⟩

/-- Sum of squared components. -/
def normSq (v : Vec3) : ℝ := v.x ^ 2 + v.y ^ 2 + v.z ^ 2

/-- Euclidean norm, `np.linalg.norm`. -/
noncomputable def norm (v : Vec3) : ℝ := Real.sqrt v.normSq

theorem normSq_nonneg (v : Vec3) : 0 ≤ v.normSq := by
  have hx := sq_nonneg v.x
  have hy := sq_nonneg v.y
  have hz := sq_nonneg v.z
  unfold normSq; linarith

theorem norm_nonneg (v : Vec3) : 0 ≤ v.norm := Real.sqrt_nonneg _

theorem norm_zero : (zero : Vec3).norm = 0 := by
  simp [norm, normSq, zero]

/-- The norm of a vector supported on the z-axis is the absolute value of its
z-component.  All concrete structures below live on the z-axis. -/
theorem norm_zaxis (c : ℝ) : (Vec3.mk 0 0 c).norm = |c| := by
  simp [norm, normSq, Real.sqrt_sq_eq_abs]

theorem normSq_div (v : Vec3) (c : ℝ) : (v.div c).normSq = v.normSq / c ^ 2 := by
  simp [div, normSq, div_pow, div_add_div_same]

theorem norm_div (v : Vec3) (c : ℝ) : (v.div c).norm = v.norm / |c| := by
  rw [norm, normSq_div, Real.sqrt_div (normSq_nonneg v), Real.sqrt_sq_eq_abs, norm]

theorem normSq_smul (v : Vec3) (c : ℝ) : (v.smul c).normSq = v.normSq * c ^ 2 := by
  simp [smul, normSq, mul_pow]; ring

theorem norm_smul (v : Vec3) (c : ℝ) : (v.smul c).norm = v.norm * |c| := by
  rw [norm, normSq_smul, Real.sqrt_mul (normSq_nonneg v), Real.sqrt_sq_eq_abs, norm]

/-- Normalising a vector of positive norm yields a unit vector. -/
theorem norm_div_self (v : Vec3) (h : 0 < v.norm) : (v.div v.norm).norm = 1 := by
  rw [norm_div, abs_of_pos h, div_self (ne_of_gt h)]

theorem add_sub_cancel_left (a b : Vec3) : (a.add b).sub a = b := by
  simp [add, sub]

theorem norm_sub_comm (a b : Vec3) : (a.sub b).norm = (b.sub a).norm := by
  unfold norm normSq sub
  congr 1
  ring

theorem sub_add_eq_smul (o d : Vec3) (c : ℝ) :
    (o.add (d.smul c)).sub o = d.smul c := add_sub_cancel_left o (d.smul c)

end Vec3

/-- One atom: an element symbol and a cartesian position.  Mirrors one entry
of an ASE `Atoms` object. -/
structure SAtom where
  symbol : String
  pos : Vec3

instance : Inhabited SAtom := ⟨⟨"", Vec3.zero⟩⟩

/-- A periodic structure: the minimum-image map induced by its cell, plus the
ordered atom list.  `mic` models what `ase.geometry.find_mic` does for the
cell of the structure. -/
structure Atoms where
  mic : Vec3 → Vec3
  atoms : List SAtom

namespace Atoms

def symbolAt (b : Atoms) (i : ℕ) : String := (b.atoms.getD i default).symbol

def posAt (b : Atoms) (i : ℕ) : Vec3 := (b.atoms.getD i default).pos

/-- `bulk.get_distance(a0, a1, vector=True, mic=True)`: the minimum image of
`positions[a1] - positions[a0]` (ASE returns the displacement pointing from
atom `a0` to atom `a1`). -/
def get_distance_vec (b : Atoms) (a0 a1 : ℕ) : Vec3 :=
  b.mic ((b.posAt a1).sub (b.posAt a0))

/-- `bulk.get_distance(a0, a1, mic=True)`: the minimum-image distance. -/
noncomputable def get_distance (b : Atoms) (a0 a1 : ℕ) : ℝ :=
  (b.get_distance_vec a0 a1).norm

/-- `bulk.append(atom)`: appends one atom at the end of the list. -/
def append (b : Atoms) (a : SAtom) : Atoms := ⟨b.mic, b.atoms ++ [a]⟩

theorem append_mic (b : Atoms) (a : SAtom) : (b.append a).mic = b.mic := rfl

theorem append_length (b : Atoms) (a : SAtom) :
    (b.append a).atoms.length = b.atoms.length + 1 := by
  simp [append]

theorem posAt_append_of_lt (b : Atoms) (a : SAtom) (i : ℕ) (h : i < b.atoms.length) :
    (b.append a).posAt i = b.posAt i := by
  show ((b.atoms ++ [a]).getD i default).pos = _
  rw [List.getD_append _ _ _ _ h]; rfl

theorem symbolAt_append_of_lt (b : Atoms) (a : SAtom) (i : ℕ) (h : i < b.atoms.length) :
    (b.append a).symbolAt i = b.symbolAt i := by
  show ((b.atoms ++ [a]).getD i default).symbol = _
  rw [List.getD_append _ _ _ _ h]; rfl

theorem posAt_append_last (b : Atoms) (a : SAtom) :
    (b.append a).posAt b.atoms.length = a.pos := by
  show ((b.atoms ++ [a]).getD b.atoms.length default).pos = _
  rw [List.getD_append_right _ _ _ _ (le_refl b.atoms.length), Nat.sub_self]
  rfl

theorem symbolAt_append_last (b : Atoms) (a : SAtom) :
    (b.append a).symbolAt b.atoms.length = a.symbol := by
  show ((b.atoms ++ [a]).getD b.atoms.length default).symbol = _
  rw [List.getD_append_right _ _ _ _ (le_refl b.atoms.length), Nat.sub_self]
  rfl

theorem get_distance_append_of_lt (b : Atoms) (a : SAtom) (i j : ℕ)
    (hi : i < b.atoms.length) (hj : j < b.atoms.length) :
    (b.append a).get_distance i j = b.get_distance i j := by
  unfold get_distance get_distance_vec
  rw [append_mic, posAt_append_of_lt _ _ _ hi, posAt_append_of_lt _ _ _ hj]

end Atoms

/-- One record of the `neighbors` list built by `find_neighbors`: the
minimum-image distance and the normalised minimum-image displacement. -/
structure Neighbor where
  dist : ℝ
  vec : Vec3

/-- `find_neighbors(bulk, index, max_dist)` from `add_proton.py`: scan every
atom `i ≠ index`; when its minimum-image distance to `index` is strictly
below `max_dist`, record the distance and the displacement from `index` to
`i` normalised by its own norm. -/
noncomputable def find_neighbors (bulk : Atoms) (index : ℕ) (max_dist : ℝ) :
    List Neighbor :=
  (List.range bulk.atoms.length).filterMap fun i =>
    if i ≠ index then
      if bulk.get_distance index i < max_dist then
        some ⟨bulk.get_distance index i,
              (bulk.get_distance_vec index i).div (bulk.get_distance_vec index i).norm⟩
      else none
    else none

/-- Stable insertion of a neighbor into a list already sorted ascending by
distance: the new record goes after every record of distance ≤ its own. -/
noncomputable def insort (a : Neighbor) : List Neighbor → List Neighbor
  | [] => [a]
  | b :: l => if b.dist ≤ a.dist then b :: insort a l else a :: b :: l

/-- Python's `sorted(neighbors, key=lambda x: x['dist'])`: the stable
ascending sort by distance. -/
noncomputable def sorted_by_dist (l : List Neighbor) : List Neighbor :=
  l.foldl (fun acc a => insort a acc) []

/-- The `direction` accumulator of `calculate_direction` after its loop: for
each of the closest `max_neighbors` records (ascending by distance), subtract
the unit direction scaled by the inverse-distance weight `1.0 / dist`. -/
noncomputable def weighted_direction (neighbors : List Neighbor)
    (max_neighbors : ℕ) : Vec3 :=
  ((sorted_by_dist neighbors).take max_neighbors).foldl
    (fun acc n => acc.sub (n.vec.smul (1.0 / n.dist))) Vec3.zero

/-- `calculate_direction(neighbors, max_neighbors)` from `add_proton.py`:
inverse-distance-weighted sum of the negated neighbor directions over the
closest `max_neighbors` records, normalised, with fallback `(0, 0, 1)` when
the accumulated norm is not above `1e-6`. -/
noncomputable def calculate_direction (neighbors : List Neighbor)
    (max_neighbors : ℕ) : Vec3 :=
  if (weighted_direction neighbors max_neighbors).norm > 1e-6 then
    (weighted_direction neighbors max_neighbors).div
      (weighted_direction neighbors max_neighbors).norm
  else ⟨0, 0, 1⟩

/-- `o_indices` of `add_protons_wisely`: the indices carrying symbol `"O"`,
computed once from the structure given to the call. -/
def o_indices (bulk : Atoms) : List ℕ :=
  (List.range bulk.atoms.length).filter fun i => bulk.symbolAt i = "O"

/-- An oxygen index is blocked when some existing hydrogen lies within 1.2
length units (minimum image) — the negation of the `available_o` membership
test of `add_protons_wisely`. -/
def blocked (bulk : Atoms) (idx : ℕ) : Prop :=
  ∃ j, j < bulk.atoms.length ∧ bulk.symbolAt j = "H" ∧
    bulk.get_distance idx j < 1.2

open Classical in
/-- `available_o` of one loop iteration of `add_protons_wisely`: the oxygen
indices with no hydrogen within 1.2 units, in their original order. -/
noncomputable def available_o (bulk : Atoms) (oidx : List ℕ) : List ℕ :=
  oidx.filter fun idx => decide (¬ blocked bulk idx)

/-- The diagnostics printed by `add_protons_wisely`, as structured records:
the warning for an unavailable site, the per-insertion report, the recomputed
bond length, and the bond-length-deviation warning. -/
inductive LogEntry : Type
  | noSite (i : ℕ)
  | added (i o : ℕ) (pos : Vec3)
  | bondLength (d : ℝ)
  | deviation (i : ℕ)

/-- One iteration of the `for i in range(n_protons)` loop of
`add_protons_wisely`: recompute the available oxygens, skip with a warning if
there are none, otherwise place one hydrogen on the first available oxygen and
report the recomputed bond length. -/
noncomputable def add_protons_step (oh_bond_length neighbor_max_dist : ℝ)
    (oidx : List ℕ) (bulk : Atoms) (i : ℕ) : Atoms × List LogEntry :=
  match available_o bulk oidx with
  | [] => (bulk, [LogEntry.noSite i])
  | o_idx :: _ =>
      let o_pos := bulk.posAt o_idx
      let neighbors := find_neighbors bulk o_idx neighbor_max_dist
      let direction := calculate_direction neighbors 3
      let h_pos := o_pos.add (direction.smul oh_bond_length)
      let bulk2 := bulk.append ⟨"H", h_pos⟩
      let oh_dist := bulk2.get_distance (bulk2.atoms.length - 1) o_idx
      (bulk2,
        [LogEntry.added i o_idx h_pos, LogEntry.bondLength oh_dist] ++
          (if |oh_dist - oh_bond_length| > 0.1 then [LogEntry.deviation i] else []))

/-- The remaining iterations of the placement loop, starting at iteration
index `i` with `k` iterations left. -/
noncomputable def add_protons_loop (oh_bond_length neighbor_max_dist : ℝ)
    (oidx : List ℕ) : Atoms → ℕ → ℕ → Atoms × List LogEntry
  | bulk, _, 0 => (bulk, [])
  | bulk, i, k + 1 =>
      let r := add_protons_step oh_bond_length neighbor_max_dist oidx bulk i
      let r2 := add_protons_loop oh_bond_length neighbor_max_dist oidx r.1 (i + 1) k
      (r2.1, r.2 ++ r2.2)

/-- `add_protons_wisely(bulk, n_protons, oh_bond_length, neighbor_max_dist)`
together with its diagnostic log.  `o_indices` is computed once, before the
loop. -/
noncomputable def add_protons_wisely_run (bulk : Atoms) (n_protons : ℕ)
    (oh_bond_length neighbor_max_dist : ℝ) : Atoms × List LogEntry :=
  add_protons_loop oh_bond_length neighbor_max_dist (o_indices bulk) bulk 0 n_protons

/-- The structure returned by `add_protons_wisely`. -/
noncomputable def add_protons_wisely (bulk : Atoms) (n_protons : ℕ)
    (oh_bond_length neighbor_max_dist : ℝ) : Atoms :=
  (add_protons_wisely_run bulk n_protons oh_bond_length neighbor_max_dist).1

/-- The source oxygen indices of the insertions reported in a log, in
insertion order. -/
def inserted_oxygens (log : List LogEntry) : List ℕ :=
  log.filterMap fun e =>
    match e with
    | LogEntry.added _ o _ => some o
    | _ => none

/-! Abbreviations for the values computed inside one successful loop
iteration, used to state the step lemmas compactly.  They are definitionally
the `let`-bound values of `add_protons_step`. -/

/-- Position of the hydrogen placed on oxygen `o`:
`o_pos + direction * oh_bond_length`. -/
noncomputable def placed_h_pos (bulk : Atoms) (oh_bond_length neighbor_max_dist : ℝ)
    (o : ℕ) : Vec3 :=
  (bulk.posAt o).add
    ((calculate_direction (find_neighbors bulk o neighbor_max_dist) 3).smul oh_bond_length)

/-- The structure after appending that hydrogen. -/
noncomputable def placed_bulk (bulk : Atoms) (oh_bond_length neighbor_max_dist : ℝ)
    (o : ℕ) : Atoms :=
  bulk.append ⟨"H", placed_h_pos bulk oh_bond_length neighbor_max_dist o⟩

/-- The recomputed minimum-image O–H distance,
`bulk.get_distance(-1, o_idx, mic=True)` after the append. -/
noncomputable def placed_oh_dist (bulk : Atoms) (oh_bond_length neighbor_max_dist : ℝ)
    (o : ℕ) : ℝ :=
  (placed_bulk bulk oh_bond_length neighbor_max_dist o).get_distance
    ((placed_bulk bulk oh_bond_length neighbor_max_dist o).atoms.length - 1) o

/-! Unfolding lemmas for the step and the loop. -/

theorem add_protons_step_nil (L c : ℝ) (oidx : List ℕ) (bulk : Atoms) (i : ℕ)
    (h : available_o bulk oidx = []) :
    add_protons_step L c oidx bulk i = (bulk, [LogEntry.noSite i]) := by
  unfold add_protons_step
  rw [h]

theorem add_protons_step_cons (L c : ℝ) (oidx : List ℕ) (bulk : Atoms) (i o : ℕ)
    (rest : List ℕ) (h : available_o bulk oidx = o :: rest) :
    add_protons_step L c oidx bulk i =
      (placed_bulk bulk L c o,
        [LogEntry.added i o (placed_h_pos bulk L c o),
         LogEntry.bondLength (placed_oh_dist bulk L c o)] ++
          (if |placed_oh_dist bulk L c o - L| > 0.1 then [LogEntry.deviation i]
           else [])) := by
  unfold add_protons_step
  rw [h]
  rfl

theorem add_protons_loop_zero (L c : ℝ) (oidx : List ℕ) (bulk : Atoms) (i : ℕ) :
    add_protons_loop L c oidx bulk i 0 = (bulk, []) := rfl

theorem add_protons_loop_succ (L c : ℝ) (oidx : List ℕ) (bulk : Atoms) (i k : ℕ) :
    add_protons_loop L c oidx bulk i (k + 1) =
      ((add_protons_loop L c oidx (add_protons_step L c oidx bulk i).1 (i + 1) k).1,
        (add_protons_step L c oidx bulk i).2 ++
          (add_protons_loop L c oidx (add_protons_step L c oidx bulk i).1 (i + 1) k).2) :=
  rfl

/-! Facts about the stable sort. -/

theorem insort_mem (a : Neighbor) (l : List Neighbor) (x : Neighbor)
    (hx : x ∈ insort a l) : x = a ∨ x ∈ l := by
  induction l with
  | nil => simpa [insort] using hx
  | cons b t ih =>
      unfold insort at hx
      split at hx
      · rcases List.mem_cons.mp hx with h | h
        · right; simp [h]
        · rcases ih h with h' | h'
          · exact Or.inl h'
          · right; simp [h']
      · rcases List.mem_cons.mp hx with h | h
        · exact Or.inl h
        · right; exact h

theorem insort_length (a : Neighbor) (l : List Neighbor) :
    (insort a l).length = l.length + 1 := by
  induction l with
  | nil => rfl
  | cons b t ih =>
      unfold insort
      split
      · simp [ih]
      · simp

theorem insort_of_max (a : Neighbor) (l : List Neighbor)
    (h : ∀ b ∈ l, b.dist ≤ a.dist) : insort a l = l ++ [a] := by
  induction l with
  | nil => rfl
  | cons b t ih =>
      unfold insort
      rw [if_pos (h b (by simp))]
      rw [ih fun x hx => h x (by simp [hx])]
      rfl

theorem foldl_insort_mem (l : List Neighbor) :
    ∀ (acc : List Neighbor) (x : Neighbor),
      x ∈ l.foldl (fun acc a => insort a acc) acc → x ∈ acc ∨ x ∈ l := by
  induction l with
  | nil => intro acc x h; exact Or.inl h
  | cons a t ih =>
      intro acc x h
      rcases ih (insort a acc) x h with h' | h'
      · rcases insort_mem a acc x h' with h'' | h''
        · right; simp [h'']
        · exact Or.inl h''
      · right; simp [h']

theorem foldl_insort_length (l : List Neighbor) :
    ∀ acc : List Neighbor,
      (l.foldl (fun acc a => insort a acc) acc).length = acc.length + l.length := by
  induction l with
  | nil => intro acc; rfl
  | cons a t ih =>
      intro acc
      rw [List.foldl_cons, ih (insort a acc), insort_length]
      simp only [List.length_cons]
      omega

theorem sorted_by_dist_mem (l : List Neighbor) (x : Neighbor)
    (hx : x ∈ sorted_by_dist l) : x ∈ l := by
  rcases foldl_insort_mem l [] x hx with h | h
  · simp at h
  · exact h

theorem sorted_by_dist_length (l : List Neighbor) :
    (sorted_by_dist l).length = l.length := by
  unfold sorted_by_dist
  rw [foldl_insort_length l []]
  simp

theorem sorted_by_dist_append_max (ns : List Neighbor) (m : Neighbor)
    (h : ∀ b ∈ ns, b.dist ≤ m.dist) :
    sorted_by_dist (ns ++ [m]) = sorted_by_dist ns ++ [m] := by
  unfold sorted_by_dist
  rw [List.foldl_append]
  show insort m (sorted_by_dist ns) = sorted_by_dist ns ++ [m]
  exact insort_of_max m _ fun b hb => h b (sorted_by_dist_mem ns b hb)

/-! Facts about `calculate_direction`. -/

theorem calculate_direction_norm (ns : List Neighbor) (k : ℕ) :
    (calculate_direction ns k).norm = 1 := by
  unfold calculate_direction
  split
  · next h => exact Vec3.norm_div_self _ (lt_trans (by norm_num) h)
  · rw [Vec3.norm_zaxis]; norm_num

/-! Facts about availability and oxygen indices. -/

theorem mem_available_o (bulk : Atoms) (oidx : List ℕ) (idx : ℕ) :
    idx ∈ available_o bulk oidx ↔ idx ∈ oidx ∧ ¬ blocked bulk idx := by
  simp [available_o, List.mem_filter]

theorem available_o_of_no_h (bulk : Atoms) (oidx : List ℕ)
    (h : ∀ j, j < bulk.atoms.length → bulk.symbolAt j ≠ "H") :
    available_o bulk oidx = oidx := by
  apply List.filter_eq_self.mpr
  intro a _
  simp only [decide_eq_true_eq]
  rintro ⟨j, hj, hs, -⟩
  exact h j hj hs

theorem o_indices_lt (bulk : Atoms) : ∀ o ∈ o_indices bulk, o < bulk.atoms.length := by
  intro o ho
  exact List.mem_range.mp (List.mem_filter.mp ho).1

theorem o_indices_nodup (bulk : Atoms) : (o_indices bulk).Nodup :=
  (List.nodup_range _).filter _

theorem o_indices_pairwise (bulk : Atoms) :
    List.Pairwise (· < ·) (o_indices bulk) :=
  List.Pairwise.filter _ (List.pairwise_lt_range _)

/-- Blocking is monotone under appending atoms: a hydrogen that blocks an
oxygen keeps blocking it after further atoms are appended. -/
theorem blocked_mono (b b' : Atoms) (hm : b'.mic = b.mic) (t : List SAtom)
    (hatoms : b'.atoms = b.atoms ++ t) (o : ℕ) (ho : o < b.atoms.length) :
    blocked b o → blocked b' o := by
  rintro ⟨j, hj, hs, hd⟩
  refine ⟨j, ?_, ?_, ?_⟩
  · rw [hatoms]; simp only [List.length_append]; omega
  · show (b'.atoms.getD j default).symbol = "H"
    rw [hatoms, List.getD_append _ _ _ _ hj]
    exact hs
  · unfold Atoms.get_distance Atoms.get_distance_vec Atoms.posAt at hd ⊢
    rw [hm, hatoms, List.getD_append _ _ _ _ hj, List.getD_append _ _ _ _ ho]
    exact hd

/-! Facts about the log projections. -/

theorem inserted_oxygens_append (l1 l2 : List LogEntry) :
    inserted_oxygens (l1 ++ l2) = inserted_oxygens l1 ++ inserted_oxygens l2 :=
  List.filterMap_append _ _ _

theorem inserted_oxygens_noSite (i : ℕ) :
    inserted_oxygens [LogEntry.noSite i] = [] := rfl

theorem inserted_oxygens_step_log (i o : ℕ) (p : Vec3) (d : ℝ) (w : List LogEntry)
    (hw : w = [] ∨ ∃ j, w = [LogEntry.deviation j]) :
    inserted_oxygens ([LogEntry.added i o p, LogEntry.bondLength d] ++ w) = [o] := by
  rcases hw with h | ⟨j, h⟩ <;> subst h <;> rfl

/-! Structure preservation: one step, and hence the whole loop, only ever
appends atoms and keeps the cell (the `mic` map) unchanged. -/

theorem add_protons_step_atoms (L c : ℝ) (oidx : List ℕ) (bulk : Atoms) (i : ℕ) :
    (add_protons_step L c oidx bulk i).1.mic = bulk.mic ∧
    ∃ t, (add_protons_step L c oidx bulk i).1.atoms = bulk.atoms ++ t := by
  cases h : available_o bulk oidx with
  | nil =>
      rw [add_protons_step_nil _ _ _ _ _ h]
      exact ⟨rfl, [], by simp⟩
  | cons o rest =>
      rw [add_protons_step_cons _ _ _ _ _ _ _ h]
      exact ⟨rfl, [⟨"H", placed_h_pos bulk L c o⟩], rfl⟩

theorem add_protons_loop_atoms (L c : ℝ) (oidx : List ℕ) :
    ∀ (k : ℕ) (bulk : Atoms) (i : ℕ),
      (add_protons_loop L c oidx bulk i k).1.mic = bulk.mic ∧
      ∃ t, (add_protons_loop L c oidx bulk i k).1.atoms = bulk.atoms ++ t := by
  intro k
  induction k with
  | zero => intro bulk i; exact ⟨rfl, [], by rw [add_protons_loop_zero]; simp⟩
  | succ k ih =>
      intro bulk i
      rw [add_protons_loop_succ]
      obtain ⟨hm1, t1, ht1⟩ := add_protons_step_atoms L c oidx bulk i
      obtain ⟨hm2, t2, ht2⟩ := ih (add_protons_step L c oidx bulk i).1 (i + 1)
      exact ⟨hm2.trans hm1, t1 ++ t2, by rw [ht2, ht1, List.append_assoc]⟩

/-- The hydrogen just placed on oxygen `o` blocks `o`: it sits at minimum-image
distance at most `oh_bond_length < 1.2` from it, because the placement
direction is a unit vector and a minimum image is never longer than the plain
displacement. -/
theorem placed_bulk_blocks (bulk : Atoms) (L c : ℝ) (hL0 : 0 ≤ L) (hL : L < 1.2)
    (hmic : ∀ v : Vec3, (bulk.mic v).norm ≤ v.norm) (o : ℕ)
    (ho : o < bulk.atoms.length) :
    blocked (placed_bulk bulk L c o) o := by
  refine ⟨bulk.atoms.length, ?_, ?_, ?_⟩
  · rw [placed_bulk, Atoms.append_length]
    omega
  · exact Atoms.symbolAt_append_last _ _
  · unfold Atoms.get_distance
    unfold Atoms.get_distance_vec
    rw [show (placed_bulk bulk L c o).mic = bulk.mic from rfl,
        show (placed_bulk bulk L c o).posAt bulk.atoms.length
            = placed_h_pos bulk L c o from Atoms.posAt_append_last _ _,
        show (placed_bulk bulk L c o).posAt o = bulk.posAt o from
          Atoms.posAt_append_of_lt _ _ _ ho,
        show (placed_h_pos bulk L c o).sub (bulk.posAt o)
            = (calculate_direction (find_neighbors bulk o c) 3).smul L from
          Vec3.add_sub_cancel_left _ _]
    have h1 := hmic ((calculate_direction (find_neighbors bulk o c) 3).smul L)
    have h2 : ((calculate_direction (find_neighbors bulk o c) 3).smul L).norm = L := by
      rw [Vec3.norm_smul, calculate_direction_norm, one_mul, abs_of_nonneg hL0]
    linarith

/-- Main loop invariant: starting from any state whose `mic` map is
contractive and which contains all the candidate oxygen indices, the loop with
`k` iterations left (a) appends exactly one atom per reported insertion,
(b) inserts only on oxygens of the candidate list that were available in the
starting state, (c) never reports the same source oxygen twice, and
(d) reports at most `k` insertions. -/
theorem add_protons_loop_invariant (L c : ℝ) (hL0 : 0 ≤ L) (hL : L < 1.2)
    (oidx : List ℕ) :
    ∀ (k : ℕ) (bulk : Atoms) (i : ℕ),
      (∀ v : Vec3, (bulk.mic v).norm ≤ v.norm) →
      (∀ o ∈ oidx, o < bulk.atoms.length) →
      (add_protons_loop L c oidx bulk i k).1.atoms.length
          = bulk.atoms.length
            + (inserted_oxygens (add_protons_loop L c oidx bulk i k).2).length ∧
      (∀ o ∈ inserted_oxygens (add_protons_loop L c oidx bulk i k).2,
          o ∈ oidx ∧ ¬ blocked bulk o) ∧
      (inserted_oxygens (add_protons_loop L c oidx bulk i k).2).Nodup ∧
      (inserted_oxygens (add_protons_loop L c oidx bulk i k).2).length ≤ k := by
  intro k
  induction k with
  | zero =>
      intro bulk i hmic hbounds
      rw [add_protons_loop_zero]
      refine ⟨by simp [inserted_oxygens], by simp [inserted_oxygens], ?_, ?_⟩
      · simp [inserted_oxygens]
      · simp [inserted_oxygens]
  | succ k ih =>
      intro bulk i hmic hbounds
      rw [add_protons_loop_succ]
      cases h : available_o bulk oidx with
      | nil =>
          rw [add_protons_step_nil _ _ _ _ _ h]
          obtain ⟨hlen, hmem, hnd, hct⟩ := ih bulk (i + 1) hmic hbounds
          refine ⟨?_, ?_, ?_, ?_⟩ <;>
            simp only [inserted_oxygens_append, inserted_oxygens_noSite,
              List.nil_append]
          · exact hlen
          · exact hmem
          · exact hnd
          · omega
      | cons o rest =>
          rw [add_protons_step_cons _ _ _ _ _ _ _ h]
          have ho_av : o ∈ available_o bulk oidx := by rw [h]; simp
          have ho := (mem_available_o bulk oidx o).mp ho_av
          have holt : o < bulk.atoms.length := hbounds o ho.1
          have hmic1 : ∀ v : Vec3, ((placed_bulk bulk L c o).mic v).norm ≤ v.norm :=
            hmic
          have hbounds1 : ∀ o' ∈ oidx, o' < (placed_bulk bulk L c o).atoms.length := by
            intro o' ho'
            rw [placed_bulk, Atoms.append_length]
            exact Nat.lt_succ_of_lt (hbounds o' ho')
          have hblock : blocked (placed_bulk bulk L c o) o :=
            placed_bulk_blocks bulk L c hL0 hL hmic o holt
          obtain ⟨hlen, hmem, hnd, hct⟩ := ih (placed_bulk bulk L c o) (i + 1) hmic1 hbounds1
          have hmono : ∀ x, x ∈ oidx → blocked bulk x → blocked (placed_bulk bulk L c o) x := by
            intro x hx
            exact blocked_mono bulk (placed_bulk bulk L c o) rfl
              [⟨"H", placed_h_pos bulk L c o⟩] rfl x (hbounds x hx)
          have hsplit :
              inserted_oxygens
                  (([LogEntry.added i o (placed_h_pos bulk L c o),
                     LogEntry.bondLength (placed_oh_dist bulk L c o)] ++
                    (if |placed_oh_dist bulk L c o - L| > 0.1
                     then [LogEntry.deviation i] else [])) ++
                   (add_protons_loop L c oidx (placed_bulk bulk L c o) (i + 1) k).2)
                = o :: inserted_oxygens
                    (add_protons_loop L c oidx (placed_bulk bulk L c o) (i + 1) k).2 := by
            rw [inserted_oxygens_append,
              inserted_oxygens_step_log _ _ _ _ _ (by split <;> simp)]
            rfl
          rw [hsplit]
          refine ⟨?_, ?_, ?_, ?_⟩
          · rw [hlen, placed_bulk, Atoms.append_length]
            simp only [List.length_cons]
            omega
          · intro x hx
            rcases List.mem_cons.mp hx with hx | hx
            · subst hx; exact ho
            · obtain ⟨hx1, hx2⟩ := hmem x hx
              exact ⟨hx1, fun hb => hx2 (hmono x hx1 hb)⟩
          · refine List.nodup_cons.mpr ⟨?_, hnd⟩
            intro hin
            exact (hmem o hin).2 hblock
          · simp only [List.length_cons]
            omega

/-! Concrete structures used as witnesses and counterexamples.  All of them
live on the z-axis of a cell large enough that the minimum image of every
displacement in play is the displacement itself, so their `mic` map is the
identity. -/

/-- The minimum-image map of a cell so large that every relevant displacement
is its own minimum image. -/
def idMic : Vec3 → Vec3 := fun v => v

/-- A single oxygen atom at the origin. -/
noncomputable def bulkO1 : Atoms := ⟨idMic, [⟨"O", ⟨0, 0, 0⟩⟩]⟩

/-- A single zirconium atom: no oxygen site at all. -/
noncomputable def bulkZr : Atoms := ⟨idMic, [⟨"Zr", ⟨0, 0, 0⟩⟩]⟩

/-- Two oxygen atoms one length unit apart on the z-axis. -/
noncomputable def bulkPair : Atoms :=
  ⟨idMic, [⟨"O", ⟨0, 0, 0⟩⟩, ⟨"O", ⟨0, 0, 1⟩⟩]⟩

/-- Two coincident oxygen atoms: the degenerate input on which the
normalisation in `find_neighbors` divides by zero. -/
noncomputable def bulkCoincident : Atoms :=
  ⟨idMic, [⟨"O", ⟨0, 0, 0⟩⟩, ⟨"O", ⟨0, 0, 0⟩⟩]⟩

/-- Two close oxygens plus a zirconium behind the first: the hydrogen placed
on oxygen 0 lands within 1.2 units of oxygen 1 as well, so the second
requested proton finds no available site. -/
noncomputable def bulkC1 : Atoms :=
  ⟨idMic, [⟨"O", ⟨0, 0, 0⟩⟩, ⟨"O", ⟨0, 0, 0.6⟩⟩, ⟨"Zr", ⟨0, 0, -0.3⟩⟩]⟩

/-! Evaluation helpers for z-axis structures with identity `mic`. -/

theorem get_distance_vec_zaxis (b : Atoms) (i j : ℕ) (zi zj : ℝ)
    (hm : b.mic = idMic) (hi : b.posAt i = ⟨0, 0, zi⟩)
    (hj : b.posAt j = ⟨0, 0, zj⟩) :
    b.get_distance_vec i j = ⟨0, 0, zj - zi⟩ := by
  unfold Atoms.get_distance_vec
  rw [hm, hi, hj]
  simp [idMic, Vec3.sub]

theorem get_distance_zaxis (b : Atoms) (i j : ℕ) (zi zj : ℝ)
    (hm : b.mic = idMic) (hi : b.posAt i = ⟨0, 0, zi⟩)
    (hj : b.posAt j = ⟨0, 0, zj⟩) :
    b.get_distance i j = |zj - zi| := by
  unfold Atoms.get_distance
  rw [get_distance_vec_zaxis b i j zi zj hm hi hj, Vec3.norm_zaxis]

/-! Evaluations on the single-oxygen structure. -/

theorem bulkO1_no_h : ∀ j, j < bulkO1.atoms.length → bulkO1.symbolAt j ≠ "H" := by
  intro j hj
  have : j = 0 := by
    have : bulkO1.atoms.length = 1 := rfl
    omega
  subst this
  intro h
  exact absurd h (by decide)

theorem o_indices_bulkO1 : o_indices bulkO1 = [0] := rfl

theorem available_o_bulkO1 : available_o bulkO1 [0] = [0] :=
  available_o_of_no_h bulkO1 [0] bulkO1_no_h

theorem o_indices_bulkZr : o_indices bulkZr = [] := rfl

theorem available_o_bulkZr : available_o bulkZr [] = [] := rfl

/-! Evaluations on `bulkC1`: the two requested protons, first iteration. -/

theorem bulkC1_no_h : ∀ j, j < bulkC1.atoms.length → bulkC1.symbolAt j ≠ "H" := by
  intro j hj
  have h3 : bulkC1.atoms.length = 3 := rfl
  rw [h3] at hj
  interval_cases j <;> exact fun h => absurd h (by decide)

theorem o_indices_bulkC1 : o_indices bulkC1 = [0, 1] := rfl

theorem available_o_bulkC1 : available_o bulkC1 [0, 1] = [0, 1] :=
  available_o_of_no_h bulkC1 [0, 1] bulkC1_no_h

theorem find_neighbors_bulkC1 :
    find_neighbors bulkC1 0 3 = [⟨0.6, ⟨0, 0, 1⟩⟩, ⟨0.3, ⟨0, 0, -1⟩⟩] := by
  have d1 : bulkC1.get_distance 0 1 = 0.6 := by
    rw [get_distance_zaxis bulkC1 0 1 0 0.6 rfl rfl rfl]
    norm_num
  have d2 : bulkC1.get_distance 0 2 = 0.3 := by
    rw [get_distance_zaxis bulkC1 0 2 0 (-0.3) rfl rfl rfl]
    norm_num
  have v1 : bulkC1.get_distance_vec 0 1 = ⟨0, 0, 0.6⟩ := by
    rw [get_distance_vec_zaxis bulkC1 0 1 0 0.6 rfl rfl rfl]
    norm_num [Vec3.mk.injEq]
  have v2 : bulkC1.get_distance_vec 0 2 = ⟨0, 0, -0.3⟩ := by
    rw [get_distance_vec_zaxis bulkC1 0 2 0 (-0.3) rfl rfl rfl]
    norm_num [Vec3.mk.injEq]
  unfold find_neighbors
  rw [show bulkC1.atoms.length = 3 from rfl,
      show List.range 3 = [0, 1, 2] from rfl]
  simp only [List.filterMap_cons, List.filterMap_nil, d1, d2, v1, v2]
  norm_num
  constructor
  · rw [Vec3.norm_zaxis, abs_of_pos (show (0 : ℝ) < 3 / 5 by norm_num)]
    norm_num [Vec3.div, Vec3.mk.injEq]
  · rw [Vec3.norm_zaxis, abs_of_neg (show (-(3 / 10) : ℝ) < 0 by norm_num)]
    norm_num [Vec3.div, Vec3.mk.injEq]

theorem weighted_direction_bulkC1 :
    weighted_direction [⟨0.6, ⟨0, 0, 1⟩⟩, ⟨0.3, ⟨0, 0, -1⟩⟩] 3 = ⟨0, 0, 5 / 3⟩ := by
  have hs : sorted_by_dist [⟨0.6, ⟨0, 0, 1⟩⟩, ⟨0.3, ⟨0, 0, -1⟩⟩]
      = [⟨0.3, ⟨0, 0, -1⟩⟩, ⟨0.6, ⟨0, 0, 1⟩⟩] := by
    unfold sorted_by_dist
    simp only [List.foldl_cons, List.foldl_nil]
    show insort ⟨0.3, ⟨0, 0, -1⟩⟩ [⟨0.6, ⟨0, 0, 1⟩⟩] = _
    unfold insort
    rw [if_neg]
    norm_num
  unfold weighted_direction
  rw [hs]
  norm_num [List.take, Vec3.sub, Vec3.smul, Vec3.zero, Vec3.mk.injEq]

theorem calculate_direction_bulkC1 :
    calculate_direction [⟨0.6, ⟨0, 0, 1⟩⟩, ⟨0.3, ⟨0, 0, -1⟩⟩] 3 = ⟨0, 0, 1⟩ := by
  unfold calculate_direction
  rw [weighted_direction_bulkC1, Vec3.norm_zaxis,
      abs_of_pos (show (0 : ℝ) < 5 / 3 by norm_num),
      if_pos (show (5 / 3 : ℝ) > 1e-6 by norm_num)]
  norm_num [Vec3.div, Vec3.mk.injEq]

theorem placed_h_pos_bulkC1 : placed_h_pos bulkC1 0.98 3 0 = ⟨0, 0, 0.98⟩ := by
  unfold placed_h_pos
  rw [find_neighbors_bulkC1, calculate_direction_bulkC1,
      show bulkC1.posAt 0 = ⟨0, 0, 0⟩ from rfl]
  norm_num [Vec3.add, Vec3.smul, Vec3.mk.injEq]

/-- The structure `bulkC1` after the first loop iteration placed a hydrogen
on oxygen 0. -/
noncomputable def bulkC1x : Atoms :=
  ⟨idMic, [⟨"O", ⟨0, 0, 0⟩⟩, ⟨"O", ⟨0, 0, 0.6⟩⟩, ⟨"Zr", ⟨0, 0, -0.3⟩⟩,
           ⟨"H", ⟨0, 0, 0.98⟩⟩]⟩

theorem placed_bulk_bulkC1 : placed_bulk bulkC1 0.98 3 0 = bulkC1x := by
  unfold placed_bulk
  rw [placed_h_pos_bulkC1]
  rfl

theorem placed_oh_dist_bulkC1 : placed_oh_dist bulkC1 0.98 3 0 = 0.98 := by
  unfold placed_oh_dist
  rw [placed_bulk_bulkC1, show bulkC1x.atoms.length - 1 = 3 from rfl,
      get_distance_zaxis bulkC1x 3 0 0.98 0 rfl rfl rfl]
  norm_num

/-- After the first insertion, the hydrogen at distance 0.98 from oxygen 0 and
0.38 from oxygen 1 blocks both oxygens. -/
theorem blocked_bulkC1x_0 : blocked bulkC1x 0 := by
  refine ⟨3, by decide, rfl, ?_⟩
  rw [get_distance_zaxis bulkC1x 0 3 0 0.98 rfl rfl rfl, abs_lt]
  constructor <;> norm_num

theorem blocked_bulkC1x_1 : blocked bulkC1x 1 := by
  refine ⟨3, by decide, rfl, ?_⟩
  rw [get_distance_zaxis bulkC1x 1 3 0.6 0.98 rfl rfl rfl, abs_lt]
  constructor <;> norm_num

theorem available_o_bulkC1x : available_o bulkC1x [0, 1] = [] := by
  apply List.filter_eq_nil_iff.mpr
  intro a ha
  fin_cases ha
  · simp only [decide_eq_true_eq, not_not]
    exact blocked_bulkC1x_0
  · simp only [decide_eq_true_eq, not_not]
    exact blocked_bulkC1x_1

theorem add_protons_step_fst_nil (L c : ℝ) (oidx : List ℕ) (bulk : Atoms) (i : ℕ)
    (h : available_o bulk oidx = []) :
    (add_protons_step L c oidx bulk i).1 = bulk := by
  rw [add_protons_step_nil L c oidx bulk i h]

theorem add_protons_step_fst_cons (L c : ℝ) (oidx : List ℕ) (bulk : Atoms)
    (i o : ℕ) (rest : List ℕ) (h : available_o bulk oidx = o :: rest) :
    (add_protons_step L c oidx bulk i).1 = placed_bulk bulk L c o := by
  rw [add_protons_step_cons L c oidx bulk i o rest h]

theorem add_protons_step_snd_cons (L c : ℝ) (oidx : List ℕ) (bulk : Atoms)
    (i o : ℕ) (rest : List ℕ) (h : available_o bulk oidx = o :: rest) :
    (add_protons_step L c oidx bulk i).2
      = [LogEntry.added i o (placed_h_pos bulk L c o),
         LogEntry.bondLength (placed_oh_dist bulk L c o)] ++
        (if |placed_oh_dist bulk L c o - L| > 0.1 then [LogEntry.deviation i]
         else []) := by
  rw [add_protons_step_cons L c oidx bulk i o rest h]

theorem run_bulkC1 : (add_protons_wisely_run bulkC1 2 0.98 3).1 = bulkC1x := by
  have key : (add_protons_wisely_run bulkC1 2 0.98 3).1
      = (add_protons_step 0.98 3 (o_indices bulkC1)
          (add_protons_step 0.98 3 (o_indices bulkC1) bulkC1 0).1 1).1 := rfl
  rw [key, o_indices_bulkC1,
      add_protons_step_fst_cons 0.98 3 [0, 1] bulkC1 0 0 [1] available_o_bulkC1,
      placed_bulk_bulkC1]
  exact add_protons_step_fst_nil 0.98 3 [0, 1] bulkC1x 1 available_o_bulkC1x

/-- Membership characterisation of `find_neighbors`: a record appears exactly
for the atoms other than the reference whose minimum-image distance is
strictly below the cutoff, and it stores that distance together with the
minimum-image displacement from the reference atom to the candidate,
normalised by its own norm. -/
theorem mem_find_neighbors_iff (bulk : Atoms) (index : ℕ) (max_dist : ℝ)
    (rec : Neighbor) :
    rec ∈ find_neighbors bulk index max_dist ↔
      ∃ i, i < bulk.atoms.length ∧ i ≠ index ∧
        bulk.get_distance index i < max_dist ∧
        rec = ⟨bulk.get_distance index i,
               (bulk.get_distance_vec index i).div
                 (bulk.get_distance_vec index i).norm⟩ := by
  unfold find_neighbors
  rw [List.mem_filterMap]
  constructor
  · rintro ⟨i, hi, hf⟩
    rw [List.mem_range] at hi
    split_ifs at hf with h1 h2
    refine ⟨i, hi, h1, h2, ?_⟩
    exact (Option.some_inj.mp hf).symm
  · rintro ⟨i, hi, hne, hlt, hrec⟩
    refine ⟨i, List.mem_range.mpr hi, ?_⟩
    rw [if_pos hne, if_pos hlt, hrec]

theorem find_neighbors_bulkPair : find_neighbors bulkPair 0 3 = [⟨1, ⟨0, 0, 1⟩⟩] := by
  have d1 : bulkPair.get_distance 0 1 = 1 := by
    rw [get_distance_zaxis bulkPair 0 1 0 1 rfl rfl rfl]
    norm_num
  have v1 : bulkPair.get_distance_vec 0 1 = ⟨0, 0, 1⟩ := by
    rw [get_distance_vec_zaxis bulkPair 0 1 0 1 rfl rfl rfl]
    norm_num [Vec3.mk.injEq]
  unfold find_neighbors
  rw [show bulkPair.atoms.length = 2 from rfl, show List.range 2 = [0, 1] from rfl]
  simp only [List.filterMap_cons, List.filterMap_nil, d1, v1]
  norm_num
  rw [Vec3.norm_zaxis, abs_of_pos (show (0 : ℝ) < 1 by norm_num)]
  norm_num [Vec3.div, Vec3.mk.injEq]

/-- Claim C2, counterexample: for the two-atom structure `bulkPair` the record
produced for neighbor 1 of reference 0 stores the unit vector `(0, 0, 1)`,
which points from the reference atom toward the neighbor; the unit vector
pointing from the neighbor toward the reference atom, computed with the same
primitives, is `(0, 0, -1)`, and the two differ. -/
theorem find_neighbors_direction_cex :
    (find_neighbors bulkPair 0 3).map Neighbor.vec = [⟨0, 0, 1⟩] ∧
    (bulkPair.get_distance_vec 1 0).div (bulkPair.get_distance_vec 1 0).norm
      = ⟨0, 0, -1⟩ ∧
    (Vec3.mk 0 0 1) ≠ (Vec3.mk 0 0 (-1)) := by
  refine ⟨by rw [find_neighbors_bulkPair]; rfl, ?_, ?_⟩
  · have v : bulkPair.get_distance_vec 1 0 = ⟨0, 0, -1⟩ := by
      rw [get_distance_vec_zaxis bulkPair 1 0 1 0 rfl rfl rfl]
      norm_num [Vec3.mk.injEq]
    rw [v, Vec3.norm_zaxis, abs_of_neg (show (-1 : ℝ) < 0 by norm_num)]
    norm_num [Vec3.div, Vec3.mk.injEq]
  · intro h
    have := congrArg Vec3.z h
    norm_num at this

/-- Claim C2 (amended): each Neighbor Record stores the minimum-image
displacement normalised to unit length pointing from the reference atom
toward the candidate neighbor (not the reverse), and a record is produced
exactly for those other atoms whose minimum-image distance to the reference
atom is strictly less than the cutoff. -/
theorem find_neighbors_characterization (bulk : Atoms) (index : ℕ)
    (max_dist : ℝ) (rec : Neighbor) :
    rec ∈ find_neighbors bulk index max_dist ↔
      ∃ i, i < bulk.atoms.length ∧ i ≠ index ∧
        bulk.get_distance index i < max_dist ∧
        rec = ⟨bulk.get_distance index i,
               (bulk.get_distance_vec index i).div
                 (bulk.get_distance_vec index i).norm⟩ :=
  mem_find_neighbors_iff bulk index max_dist rec

/-- Claim C3: `calculate_direction` sorts the neighbors ascending by
distance, keeps at most the closest `max_neighbors`, accumulates
`-vec * (1/dist)` over them, and normalises the result; when the accumulated
norm is below the `1e-6` threshold (in particular for an empty neighbor list)
it returns exactly `(0, 0, 1)`, and its output always has unit norm. -/
theorem calculate_direction_spec (ns : List Neighbor) (k : ℕ) :
    calculate_direction ns k
      = (if (weighted_direction ns k).norm > 1e-6
         then (weighted_direction ns k).div (weighted_direction ns k).norm
         else ⟨0, 0, 1⟩) ∧
    weighted_direction ns k
      = ((sorted_by_dist ns).take k).foldl
          (fun acc n => acc.sub (n.vec.smul (1.0 / n.dist))) Vec3.zero ∧
    ((weighted_direction ns k).norm < 1e-6 → calculate_direction ns k = ⟨0, 0, 1⟩) ∧
    calculate_direction [] k = ⟨0, 0, 1⟩ ∧
    (calculate_direction ns k).norm = 1 := by
  refine ⟨rfl, rfl, ?_, ?_, calculate_direction_norm ns k⟩
  · intro hlt
    unfold calculate_direction
    rw [if_neg (lt_asymm hlt)]
  · have hz : weighted_direction ([] : List Neighbor) k = Vec3.zero := by
      unfold weighted_direction
      rw [show sorted_by_dist [] = [] from rfl, List.take_nil, List.foldl_nil]
    have h0 : ¬ (weighted_direction ([] : List Neighbor) k).norm > 1e-6 := by
      rw [hz, Vec3.norm_zero]
      norm_num
    unfold calculate_direction
    rw [if_neg h0]

/-- Claim C7: appending a neighbor strictly farther than every neighbor of a
collection that already holds at least `max_neighbors` records does not
change the computed direction. -/
theorem calculate_direction_ignores_far_tail (ns : List Neighbor) (m : Neighbor)
    (k : ℕ) (hk : k ≤ ns.length) (hm : ∀ b ∈ ns, b.dist < m.dist) :
    calculate_direction (ns ++ [m]) k = calculate_direction ns k := by
  have hsort : sorted_by_dist (ns ++ [m]) = sorted_by_dist ns ++ [m] :=
    sorted_by_dist_append_max ns m fun b hb => le_of_lt (hm b hb)
  have htake : (sorted_by_dist (ns ++ [m])).take k = (sorted_by_dist ns).take k := by
    rw [hsort,
        List.take_append_of_le_length (by rw [sorted_by_dist_length]; exact hk)]
  have hw : weighted_direction (ns ++ [m]) k = weighted_direction ns k := by
    unfold weighted_direction
    rw [htake]
  unfold calculate_direction
  rw [hw]

/-- Witness for C7 at a concrete three-record collection and a strictly
farther fourth record. -/
theorem calculate_direction_ignores_far_tail_witness :
    (3 ≤ ([⟨1, ⟨0, 0, 1⟩⟩, ⟨2, ⟨0, 0, 1⟩⟩, ⟨3, ⟨0, 0, 1⟩⟩] : List Neighbor).length) ∧
    (∀ b ∈ ([⟨1, ⟨0, 0, 1⟩⟩, ⟨2, ⟨0, 0, 1⟩⟩, ⟨3, ⟨0, 0, 1⟩⟩] : List Neighbor),
      b.dist < (Neighbor.mk 4 ⟨0, 0, 1⟩).dist) ∧
    calculate_direction
        ([⟨1, ⟨0, 0, 1⟩⟩, ⟨2, ⟨0, 0, 1⟩⟩, ⟨3, ⟨0, 0, 1⟩⟩] ++ [⟨4, ⟨0, 0, 1⟩⟩]) 3
      = calculate_direction [⟨1, ⟨0, 0, 1⟩⟩, ⟨2, ⟨0, 0, 1⟩⟩, ⟨3, ⟨0, 0, 1⟩⟩] 3 := by
  have hd : ∀ b ∈ ([⟨1, ⟨0, 0, 1⟩⟩, ⟨2, ⟨0, 0, 1⟩⟩, ⟨3, ⟨0, 0, 1⟩⟩] : List Neighbor),
      b.dist < (Neighbor.mk 4 ⟨0, 0, 1⟩).dist := by
    intro b hb
    fin_cases hb <;> norm_num
  exact ⟨by simp, hd,
    calculate_direction_ignores_far_tail _ ⟨4, ⟨0, 0, 1⟩⟩ 3 (by simp) hd⟩

/-- Claim C1, counterexample: `bulkC1` has no hydrogens and two oxygens, yet
requesting two protons appends only one hydrogen — the hydrogen inserted in
the first iteration lands within 1.2 units of both oxygens, so the second
iteration finds no available site and the claimed count
`min(n, number_of_oxygens) = 2` is not reached. -/
theorem add_protons_count_below_min :
    (∀ j, j < bulkC1.atoms.length → bulkC1.symbolAt j ≠ "H") ∧
    o_indices bulkC1 ≠ [] ∧
    min 2 (o_indices bulkC1).length = 2 ∧
    (add_protons_wisely bulkC1 2 0.98 3).atoms.length
      = bulkC1.atoms.length + 1 := by
  refine ⟨bulkC1_no_h, ?_, ?_, ?_⟩
  · rw [o_indices_bulkC1]
    simp
  · rw [o_indices_bulkC1]
    rfl
  · unfold add_protons_wisely
    rw [run_bulkC1]
    rfl

/-- Claim C1 (amended): for a structure with no hydrogens and at least one
oxygen (with a contractive minimum-image map and a bond length below the
1.2-unit exclusion radius), a run appends one hydrogen per reported
insertion, never uses the same source oxygen twice, appends at most
`min(n, number_of_oxygens)` hydrogens — possibly fewer, see the
counterexample — and appends at least one when `n ≥ 1`. -/
theorem add_protons_at_most_min_distinct (bulk : Atoms) (n : ℕ) (L c : ℝ)
    (hH : ∀ j, j < bulk.atoms.length → bulk.symbolAt j ≠ "H")
    (hO : o_indices bulk ≠ []) (hL0 : 0 ≤ L) (hL : L < 1.2)
    (hmic : ∀ v : Vec3, (bulk.mic v).norm ≤ v.norm) :
    (inserted_oxygens (add_protons_wisely_run bulk n L c).2).Nodup ∧
    (add_protons_wisely bulk n L c).atoms.length
      = bulk.atoms.length
        + (inserted_oxygens (add_protons_wisely_run bulk n L c).2).length ∧
    (inserted_oxygens (add_protons_wisely_run bulk n L c).2).length
      ≤ min n (o_indices bulk).length ∧
    (1 ≤ n → 1 ≤ (inserted_oxygens (add_protons_wisely_run bulk n L c).2).length) := by
  unfold add_protons_wisely add_protons_wisely_run
  obtain ⟨hlen, hmem, hnd, hct⟩ :=
    add_protons_loop_invariant L c hL0 hL (o_indices bulk) n bulk 0 hmic
      (o_indices_lt bulk)
  refine ⟨hnd, hlen, ?_, ?_⟩
  · refine le_min hct ?_
    have hsub : ∀ x ∈ inserted_oxygens
        (add_protons_loop L c (o_indices bulk) bulk 0 n).2, x ∈ o_indices bulk :=
      fun x hx => (hmem x hx).1
    calc (inserted_oxygens (add_protons_loop L c (o_indices bulk) bulk 0 n).2).length
        = (inserted_oxygens
            (add_protons_loop L c (o_indices bulk) bulk 0 n).2).toFinset.card :=
          (List.toFinset_card_of_nodup hnd).symm
      _ ≤ (o_indices bulk).toFinset.card := by
          apply Finset.card_le_card
          intro a ha
          rw [List.mem_toFinset] at ha ⊢
          exact hsub a ha
      _ ≤ (o_indices bulk).length := List.toFinset_card_le _
  · intro hn
    obtain ⟨m, rfl⟩ : ∃ m, n = m + 1 := ⟨n - 1, by omega⟩
    have hav : available_o bulk (o_indices bulk) = o_indices bulk :=
      available_o_of_no_h bulk _ hH
    obtain ⟨o, rest, hcons⟩ :
        ∃ o rest, available_o bulk (o_indices bulk) = o :: rest := by
      rw [hav]
      cases hx : o_indices bulk with
      | nil => exact absurd hx hO
      | cons a t => exact ⟨a, t, rfl⟩
    rw [add_protons_loop_succ, inserted_oxygens_append, List.length_append,
        add_protons_step_snd_cons L c (o_indices bulk) bulk 0 o rest hcons,
        inserted_oxygens_step_log 0 o _ _ _ (by split <;> simp)]
    simp

/-- Witness for C1 (amended) at the single-oxygen structure `bulkO1` with one
requested proton and the default parameters. -/
theorem add_protons_at_most_min_distinct_witness :
    (∀ j, j < bulkO1.atoms.length → bulkO1.symbolAt j ≠ "H") ∧
    o_indices bulkO1 ≠ [] ∧ (0 : ℝ) ≤ 0.98 ∧ (0.98 : ℝ) < 1.2 ∧
    (∀ v : Vec3, (bulkO1.mic v).norm ≤ v.norm) ∧
    ((inserted_oxygens (add_protons_wisely_run bulkO1 1 0.98 3).2).Nodup ∧
     (add_protons_wisely bulkO1 1 0.98 3).atoms.length
       = bulkO1.atoms.length
         + (inserted_oxygens (add_protons_wisely_run bulkO1 1 0.98 3).2).length ∧
     (inserted_oxygens (add_protons_wisely_run bulkO1 1 0.98 3).2).length
       ≤ min 1 (o_indices bulkO1).length ∧
     (1 ≤ 1 →
       1 ≤ (inserted_oxygens (add_protons_wisely_run bulkO1 1 0.98 3).2).length)) := by
  have hO : o_indices bulkO1 ≠ [] := by
    rw [o_indices_bulkO1]
    simp
  exact ⟨bulkO1_no_h, hO, by norm_num, by norm_num, fun v => le_refl _,
    add_protons_at_most_min_distinct bulkO1 1 0.98 3 bulkO1_no_h hO
      (by norm_num) (by norm_num) (fun v => le_refl _)⟩

/-- Claim C4: in every iteration that finds at least one available oxygen,
the chosen insertion site is the available oxygen with the smallest index of
the candidate list (deterministic first-fit; no randomisation, no
distance-based selection). -/
theorem step_picks_first_available (L c : ℝ) (oidx : List ℕ) (bulk : Atoms)
    (i : ℕ) (hs : List.Pairwise (· < ·) oidx)
    (hne : available_o bulk oidx ≠ []) :
    ∃ o rest, available_o bulk oidx = o :: rest ∧
      o ∈ oidx ∧ ¬ blocked bulk o ∧
      (∀ o' ∈ oidx, ¬ blocked bulk o' → o ≤ o') ∧
      (add_protons_step L c oidx bulk i).1 = placed_bulk bulk L c o ∧
      inserted_oxygens (add_protons_step L c oidx bulk i).2 = [o] := by
  cases h : available_o bulk oidx with
  | nil => exact absurd h hne
  | cons o rest =>
      have hoav : o ∈ available_o bulk oidx := by
        rw [h]
        exact List.mem_cons_self _ _
      have ho := (mem_available_o bulk oidx o).mp hoav
      refine ⟨o, rest, rfl, ho.1, ho.2, ?_,
        add_protons_step_fst_cons L c oidx bulk i o rest h, ?_⟩
      · intro o' ho' hb
        have h2 : o' ∈ available_o bulk oidx :=
          (mem_available_o bulk oidx o').mpr ⟨ho', hb⟩
        rw [h] at h2
        rcases List.mem_cons.mp h2 with he | hmem
        · omega
        · have hp : List.Pairwise (· < ·) (available_o bulk oidx) :=
            List.Pairwise.filter _ hs
          rw [h] at hp
          have := (List.pairwise_cons.mp hp).1 o' hmem
          omega
      · rw [add_protons_step_snd_cons L c oidx bulk i o rest h]
        exact inserted_oxygens_step_log i o _ _ _ (by split <;> simp)

/-- Witness for C4 at the single-oxygen structure. -/
theorem step_picks_first_available_witness :
    List.Pairwise (· < ·) (o_indices bulkO1) ∧
    available_o bulkO1 (o_indices bulkO1) ≠ [] ∧
    (∃ o rest, available_o bulkO1 (o_indices bulkO1) = o :: rest ∧
      o ∈ o_indices bulkO1 ∧ ¬ blocked bulkO1 o ∧
      (∀ o' ∈ o_indices bulkO1, ¬ blocked bulkO1 o' → o ≤ o') ∧
      (add_protons_step 0.98 3 (o_indices bulkO1) bulkO1 0).1
        = placed_bulk bulkO1 0.98 3 o ∧
      inserted_oxygens (add_protons_step 0.98 3 (o_indices bulkO1) bulkO1 0).2
        = [o]) := by
  have hne : available_o bulkO1 (o_indices bulkO1) ≠ [] := by
    rw [o_indices_bulkO1, available_o_bulkO1]
    simp
  exact ⟨o_indices_pairwise bulkO1, hne,
    step_picks_first_available 0.98 3 (o_indices bulkO1) bulkO1 0
      (o_indices_pairwise bulkO1) hne⟩

/-- Claim C5: when no oxygen is available, the iteration emits the
diagnostic, inserts nothing — the structure is unchanged — and the remaining
iterations still execute from that same state. -/
theorem step_skip_unavailable (L c : ℝ) (oidx : List ℕ) (bulk : Atoms) (i k : ℕ)
    (h : available_o bulk oidx = []) :
    add_protons_step L c oidx bulk i = (bulk, [LogEntry.noSite i]) ∧
    add_protons_loop L c oidx bulk i (k + 1)
      = ((add_protons_loop L c oidx bulk (i + 1) k).1,
         LogEntry.noSite i :: (add_protons_loop L c oidx bulk (i + 1) k).2) := by
  refine ⟨add_protons_step_nil L c oidx bulk i h, ?_⟩
  rw [add_protons_loop_succ, add_protons_step_nil L c oidx bulk i h]
  rfl

/-- Witness for C5 at the oxygen-free structure `bulkZr`. -/
theorem step_skip_unavailable_witness :
    available_o bulkZr (o_indices bulkZr) = [] ∧
    (add_protons_step 0.98 3 (o_indices bulkZr) bulkZr 0
        = (bulkZr, [LogEntry.noSite 0]) ∧
     add_protons_loop 0.98 3 (o_indices bulkZr) bulkZr 0 (0 + 1)
       = ((add_protons_loop 0.98 3 (o_indices bulkZr) bulkZr (0 + 1) 0).1,
          LogEntry.noSite 0 ::
            (add_protons_loop 0.98 3 (o_indices bulkZr) bulkZr (0 + 1) 0).2)) := by
  have h : available_o bulkZr (o_indices bulkZr) = [] := by
    rw [o_indices_bulkZr, available_o_bulkZr]
  exact ⟨h, step_skip_unavailable 0.98 3 (o_indices bulkZr) bulkZr 0 0 h⟩

/-- Claim C6: after an insertion the minimum-image O–H distance of the new
pair is recomputed and compared to the target; a deviation beyond 0.1 units
only adds an advisory log entry, and the appended hydrogen is part of the
resulting structure in all cases — the tolerance check never removes or
relocates it. -/
theorem step_deviation_advisory_only (L c : ℝ) (oidx : List ℕ) (bulk : Atoms)
    (i o : ℕ) (rest : List ℕ) (h : available_o bulk oidx = o :: rest) :
    (add_protons_step L c oidx bulk i).1
      = bulk.append ⟨"H", placed_h_pos bulk L c o⟩ ∧
    placed_oh_dist bulk L c o
      = (bulk.append ⟨"H", placed_h_pos bulk L c o⟩).get_distance
          ((bulk.append ⟨"H", placed_h_pos bulk L c o⟩).atoms.length - 1) o ∧
    (|placed_oh_dist bulk L c o - L| > 0.1 →
      (add_protons_step L c oidx bulk i).2
        = [LogEntry.added i o (placed_h_pos bulk L c o),
           LogEntry.bondLength (placed_oh_dist bulk L c o),
           LogEntry.deviation i]) ∧
    (¬ |placed_oh_dist bulk L c o - L| > 0.1 →
      (add_protons_step L c oidx bulk i).2
        = [LogEntry.added i o (placed_h_pos bulk L c o),
           LogEntry.bondLength (placed_oh_dist bulk L c o)]) := by
  refine ⟨add_protons_step_fst_cons L c oidx bulk i o rest h, rfl, ?_, ?_⟩
  · intro hd
    rw [add_protons_step_snd_cons L c oidx bulk i o rest h, if_pos hd]
    rfl
  · intro hd
    rw [add_protons_step_snd_cons L c oidx bulk i o rest h, if_neg hd]
    rfl

/-- Witness for C6 at the single-oxygen structure. -/
theorem step_deviation_advisory_only_witness :
    available_o bulkO1 (o_indices bulkO1) = 0 :: [] ∧
    ((add_protons_step 0.98 3 (o_indices bulkO1) bulkO1 0).1
       = bulkO1.append ⟨"H", placed_h_pos bulkO1 0.98 3 0⟩ ∧
     placed_oh_dist bulkO1 0.98 3 0
       = (bulkO1.append ⟨"H", placed_h_pos bulkO1 0.98 3 0⟩).get_distance
           ((bulkO1.append ⟨"H", placed_h_pos bulkO1 0.98 3 0⟩).atoms.length - 1) 0 ∧
     (|placed_oh_dist bulkO1 0.98 3 0 - 0.98| > 0.1 →
       (add_protons_step 0.98 3 (o_indices bulkO1) bulkO1 0).2
         = [LogEntry.added 0 0 (placed_h_pos bulkO1 0.98 3 0),
            LogEntry.bondLength (placed_oh_dist bulkO1 0.98 3 0),
            LogEntry.deviation 0]) ∧
     (¬ |placed_oh_dist bulkO1 0.98 3 0 - 0.98| > 0.1 →
       (add_protons_step 0.98 3 (o_indices bulkO1) bulkO1 0).2
         = [LogEntry.added 0 0 (placed_h_pos bulkO1 0.98 3 0),
            LogEntry.bondLength (placed_oh_dist bulkO1 0.98 3 0)])) := by
  have h : available_o bulkO1 (o_indices bulkO1) = 0 :: [] := by
    rw [o_indices_bulkO1, available_o_bulkO1]
  exact ⟨h, step_deviation_advisory_only 0.98 3 (o_indices bulkO1) bulkO1 0 0 [] h⟩

/-- Claim C8: one `add_protons_wisely` run keeps every input atom at its
index with its symbol and position unchanged — the cell is untouched and the
original atom list is an unmodified initial segment of the output list, so
new atoms are only ever appended after it. -/
theorem add_protons_preserves_original_atoms (bulk : Atoms) (n : ℕ) (L c : ℝ) :
    (add_protons_wisely bulk n L c).mic = bulk.mic ∧
    (∃ t, (add_protons_wisely bulk n L c).atoms = bulk.atoms ++ t) ∧
    ∀ i, i < bulk.atoms.length →
      (add_protons_wisely bulk n L c).atoms.getD i default
        = bulk.atoms.getD i default := by
  unfold add_protons_wisely add_protons_wisely_run
  obtain ⟨hm, t, ht⟩ := add_protons_loop_atoms L c (o_indices bulk) n bulk 0
  refine ⟨hm, ⟨t, ht⟩, ?_⟩
  intro i hi
  rw [ht, List.getD_append _ _ _ _ hi]

/-- Claim C9: the hydrogen appended on oxygen `o` lies at plain Euclidean
distance exactly `oh_bond_length` from that oxygen, because the direction
returned by `calculate_direction` has unit norm; consequently the recomputed
minimum-image O–H distance equals the target whenever the minimum image of
the O–H displacement is the plain displacement. -/
theorem inserted_h_plain_distance_exact (L c : ℝ) (oidx : List ℕ) (bulk : Atoms)
    (o : ℕ) (rest : List ℕ) (h : available_o bulk oidx = o :: rest)
    (hL : 0 ≤ L) (ho : o < bulk.atoms.length) :
    ((placed_h_pos bulk L c o).sub (bulk.posAt o)).norm = L ∧
    (calculate_direction (find_neighbors bulk o c) 3).norm = 1 ∧
    (bulk.mic ((bulk.posAt o).sub (placed_h_pos bulk L c o))
        = (bulk.posAt o).sub (placed_h_pos bulk L c o) →
      placed_oh_dist bulk L c o = L) := by
  have h1 : (placed_h_pos bulk L c o).sub (bulk.posAt o)
      = (calculate_direction (find_neighbors bulk o c) 3).smul L :=
    Vec3.add_sub_cancel_left _ _
  have h2 : ((calculate_direction (find_neighbors bulk o c) 3).smul L).norm = L := by
    rw [Vec3.norm_smul, calculate_direction_norm, one_mul, abs_of_nonneg hL]
  refine ⟨by rw [h1, h2], calculate_direction_norm _ _, ?_⟩
  intro hfix
  unfold placed_oh_dist Atoms.get_distance Atoms.get_distance_vec
  rw [show (placed_bulk bulk L c o).atoms.length - 1 = bulk.atoms.length from by
        simp [placed_bulk, Atoms.append_length],
      show (placed_bulk bulk L c o).posAt bulk.atoms.length
          = placed_h_pos bulk L c o from Atoms.posAt_append_last _ _,
      show (placed_bulk bulk L c o).posAt o = bulk.posAt o from
        Atoms.posAt_append_of_lt _ _ _ ho,
      show (placed_bulk bulk L c o).mic = bulk.mic from rfl,
      hfix, Vec3.norm_sub_comm, h1, h2]

/-- Witness for C9 at the single-oxygen structure. -/
theorem inserted_h_plain_distance_exact_witness :
    available_o bulkO1 (o_indices bulkO1) = 0 :: [] ∧ (0 : ℝ) ≤ 0.98 ∧
    0 < bulkO1.atoms.length ∧
    (((placed_h_pos bulkO1 0.98 3 0).sub (bulkO1.posAt 0)).norm = 0.98 ∧
     (calculate_direction (find_neighbors bulkO1 0 3) 3).norm = 1 ∧
     (bulkO1.mic ((bulkO1.posAt 0).sub (placed_h_pos bulkO1 0.98 3 0))
         = (bulkO1.posAt 0).sub (placed_h_pos bulkO1 0.98 3 0) →
       placed_oh_dist bulkO1 0.98 3 0 = 0.98)) := by
  have h : available_o bulkO1 (o_indices bulkO1) = 0 :: [] := by
    rw [o_indices_bulkO1, available_o_bulkO1]
  exact ⟨h, by norm_num, by decide,
    inserted_h_plain_distance_exact 0.98 3 (o_indices bulkO1) bulkO1 0 [] h
      (by norm_num) (by decide)⟩

/-- Claim C10: when all pairwise minimum-image distances are strictly
positive, every record built by `find_neighbors` has positive distance — so
its stored direction was divided by a nonzero norm and is exactly unit
length, and every `1/dist` weight used by `calculate_direction` on any of
its records divides by a nonzero number; on the coincident-atom structure
`bulkCoincident`, however, `find_neighbors` builds a record with distance 0
whose displacement has norm 0, so both divisions divide by zero there. -/
theorem division_safety (bulk : Atoms) (index : ℕ) (c : ℝ)
    (hpre : ∀ i j, i < bulk.atoms.length → j < bulk.atoms.length → i ≠ j →
      0 < bulk.get_distance i j)
    (hindex : index < bulk.atoms.length) :
    (∀ rec ∈ find_neighbors bulk index c, 0 < rec.dist ∧ rec.vec.norm = 1) ∧
    (∀ rec ∈ (sorted_by_dist (find_neighbors bulk index c)).take 3,
      0 < rec.dist) ∧
    (∃ rec ∈ find_neighbors bulkCoincident 0 3,
      rec.dist = 0 ∧ (bulkCoincident.get_distance_vec 0 1).norm = 0) := by
  have hmain : ∀ rec ∈ find_neighbors bulk index c, 0 < rec.dist ∧ rec.vec.norm = 1 := by
    intro rec hrec
    obtain ⟨i, hi, hne, hlt, hrec⟩ := (mem_find_neighbors_iff bulk index c rec).mp hrec
    have hpos : 0 < bulk.get_distance index i :=
      hpre index i hindex hi fun he => hne (he.symm)
    subst hrec
    constructor
    · exact hpos
    · exact Vec3.norm_div_self _ hpos
  refine ⟨hmain, ?_, ?_⟩
  · intro rec hrec
    exact (hmain rec (sorted_by_dist_mem _ rec (List.take_subset _ _ hrec))).1
  · have hd : bulkCoincident.get_distance 0 1 = 0 := by
      rw [get_distance_zaxis bulkCoincident 0 1 0 0 rfl rfl rfl]
      norm_num
    have hv : (bulkCoincident.get_distance_vec 0 1).norm = 0 := hd
    refine ⟨⟨bulkCoincident.get_distance 0 1,
      (bulkCoincident.get_distance_vec 0 1).div
        (bulkCoincident.get_distance_vec 0 1).norm⟩, ?_, hd, hv⟩
    apply (mem_find_neighbors_iff bulkCoincident 0 3 _).mpr
    refine ⟨1, by decide, by decide, ?_, rfl⟩
    rw [hd]
    norm_num

/-- Witness for C10 at the two-oxygen structure `bulkPair`, whose pairwise
minimum-image distances are all 1. -/
theorem division_safety_witness :
    (∀ i j, i < bulkPair.atoms.length → j < bulkPair.atoms.length → i ≠ j →
      0 < bulkPair.get_distance i j) ∧
    0 < bulkPair.atoms.length ∧
    ((∀ rec ∈ find_neighbors bulkPair 0 3, 0 < rec.dist ∧ rec.vec.norm = 1) ∧
     (∀ rec ∈ (sorted_by_dist (find_neighbors bulkPair 0 3)).take 3,
       0 < rec.dist) ∧
     (∃ rec ∈ find_neighbors bulkCoincident 0 3,
       rec.dist = 0 ∧ (bulkCoincident.get_distance_vec 0 1).norm = 0)) := by
  have hpre : ∀ i j, i < bulkPair.atoms.length → j < bulkPair.atoms.length →
      i ≠ j → 0 < bulkPair.get_distance i j := by
    intro i j hi hj hne
    rw [show bulkPair.atoms.length = 2 from rfl] at hi hj
    interval_cases i <;> interval_cases j <;> first
      | omega
      | (rw [get_distance_zaxis bulkPair 0 1 0 1 rfl rfl rfl]; norm_num)
      | (rw [get_distance_zaxis bulkPair 1 0 1 0 rfl rfl rfl]; norm_num)
  exact ⟨hpre, by decide, division_safety bulkPair 0 3 hpre (by decide)⟩

end AddProton
